import Mathlib

/-!
Shallow embedding of the 5takes rules engine (src/src/game/*.py):
cards, deck, rows, table, players, rules and the Game turn machinery.
Card identities are natural numbers; Python exceptions become `Except String`.
-/

namespace FiveTakes

/-! ## Card (src/src/game/card.py) -/

/-- `Card.points` (card.py lines 32-48): penalty points derived from the value. -/
def points (v : Nat) : Nat :=
  if v = 55 then 7
  else if v % 11 = 0 then 5
  else if v % 10 = 0 then 3
  else if v % 5 = 0 then 2
  else 1

/-- The points table as the spec states it in section 4.1, written from the
spec's words for comparison with the source's `points`. -/
def spec_points (v : Nat) : Nat :=
  if v = 55 then 7
  else if 11 ∣ v then 5
  else if 10 ∣ v then 3
  else if 5 ∣ v then 2
  else 1

/-! ## Deck (src/src/game/card.py, class Deck)

A deck is the list of card values in order; `deal_card` pops the LAST
element (Python `list.pop()`). -/

/-- `Deck.deal_card` (card.py lines 113-124): error on an empty deck, else
remove and return the last card. -/
def deal_card (d : List Nat) : Except String (Nat × List Nat) :=
  match d.getLast? with
  | none => .error "Cannot deal from empty deck"
  | some c => .ok (c, d.dropLast)

/-- Helper for `deal_cards`: deal `n` cards one at a time, as the list
comprehension `[self.deal_card() for _ in range(count)]` does. -/
def deal_loop (n : Nat) (d : List Nat) : Except String (List Nat × List Nat) :=
  match n with
  | 0 => .ok ([], d)
  | n + 1 =>
    match deal_card d with
    | .error e => .error e
    | .ok (c, d') =>
      match deal_loop n d' with
      | .error e => .error e
      | .ok (cs, d'') => .ok (c :: cs, d'')

/-- `Deck.deal_cards` (card.py lines 126-140): error when `count` exceeds the
remaining cards, else deal `count` cards one by one. -/
def deal_cards (count : Nat) (d : List Nat) : Except String (List Nat × List Nat) :=
  if count > d.length then
    .error "Cannot deal: not enough cards remaining"
  else
    deal_loop count d

/-! ## Row (src/src/game/table.py, class Row) -/

/-- A row of cards on the table (table.py class Row). `Row.__init__` always
seeds one card, so rows are non-empty in every reachable state. -/
structure Row where
  cards : List Nat
  deriving Repr, DecidableEq

instance : Inhabited Row := ⟨⟨[]⟩⟩

/-- `Row.MAX_CARDS`. -/
def MAX_CARDS : Nat := 5

/-- `Row.last_card` (table.py lines 29-36): the rightmost card
(`self._cards[-1]`; rows are never empty in reachable states). -/
def Row.last_card (r : Row) : Nat := r.cards.getLastD 0

/-- `Row.is_full` (table.py lines 38-45): 5 or more cards. -/
def Row.is_full (r : Row) : Bool := r.cards.length ≥ MAX_CARDS

/-- `Row.can_place_card` (table.py lines 65-74). -/
def Row.can_place_card (r : Row) (c : Nat) : Bool :=
  c > r.last_card && !r.is_full

/-- `Row.place_card` (table.py lines 76-101): check order as in the source
(ascending first, then fullness); append, and wipe when the row reaches
capacity, keeping only the just-placed card. -/
def Row.place_card (r : Row) (c : Nat) : Except String (Row × Option (List Nat)) :=
  if ¬ c > r.last_card then
    .error "Card cannot be placed after last card"
  else if r.is_full then
    .error "Cannot place card in full row"
  else
    let cards' := r.cards ++ [c]
    if cards'.length ≥ MAX_CARDS then
      .ok (⟨[c]⟩, some cards'.dropLast)
    else
      .ok (⟨cards'⟩, none)

/-- `Row.wipe_and_replace` (table.py lines 103-114). -/
def Row.wipe_and_replace (r : Row) (c : Nat) : Row × List Nat :=
  (⟨[c]⟩, r.cards)

/-! ## Table (src/src/game/table.py, class Table) -/

/-- The table: the list of rows (exactly 4 in every reachable state). -/
structure Table where
  rows : List Row
  deriving Repr, DecidableEq

/-- `Table.NUM_ROWS`. -/
def NUM_ROWS : Nat := 4

/-- The body of the `Table.find_target_row` loop: the accumulator is the
best (row index, gap) seen so far, replaced only on a strictly smaller gap
(so the earliest row wins a tie, as the source loop does). -/
def ftr_step (c : Nat) (acc : Option (Nat × Nat)) (p : Nat × Row) : Option (Nat × Nat) :=
  if p.2.can_place_card c then
    let gap := c - p.2.last_card
    match acc with
    | none => some (p.1, gap)
    | some (bi, bg) => if gap < bg then some (p.1, gap) else some (bi, bg)
  else acc

/-- `Table.find_target_row` (table.py lines 169-188): scan the enumerated
rows keeping the index of the smallest gap. -/
def Table.find_target_row (t : Table) (c : Nat) : Option Nat :=
  (t.rows.enum.foldl (ftr_step c) none).map Prod.fst

/-- `Table.place_card` (table.py lines 190-215): a forced row index is
validated against 0..3 and wiped unconditionally; otherwise the best row is
looked up and the card placed there normally. Returns (table, row index,
wiped cards). -/
def Table.place_card (t : Table) (c : Nat) (forced_row : Option Nat) :
    Except String (Table × Nat × Option (List Nat)) :=
  match forced_row with
  | some i =>
    if i < NUM_ROWS then
      let (r', wiped) := (t.rows.getD i default).wipe_and_replace c
      .ok (⟨t.rows.set i r'⟩, i, some wiped)
    else
      .error "Row index must be 0-3"
  | none =>
    match t.find_target_row c with
    | none => .error "Card cannot be placed on any row"
    | some i =>
      match (t.rows.getD i default).place_card c with
      | .error e => .error e
      | .ok (r', wiped) => .ok (⟨t.rows.set i r'⟩, i, wiped)

/-- `Table.must_wipe_row` (table.py lines 217-226). -/
def Table.must_wipe_row (t : Table) (c : Nat) : Bool :=
  (t.find_target_row c).isNone

/-- `Table.get_row_choices` (table.py lines 228-234). -/
def Table.get_row_choices (_t : Table) : List Nat :=
  List.range NUM_ROWS

/-! ## Player (src/src/game/player.py)

Python mutates `Player` objects in place; here every operation returns the
updated player. The ad-hoc `_forced_row_choice` attribute that game.py
attaches with `setattr`/`delattr` is modelled as an optional field that is
`none` when the attribute is absent. -/

structure Player where
  name : String
  hand : List Nat
  total_score : Nat
  round_score : Nat
  selected_card : Option Nat
  forced_row_choice : Option Nat
  deriving Repr, DecidableEq

instance : Inhabited Player := ⟨⟨"", [], 0, 0, none, none⟩⟩

/-- Stable ascending sort by a numeric key: the result of Python's stable
`sorted(..., key=...)` / `list.sort()` (insertion sort is stable and agrees
with any stable sort on the same key). -/
def sortByKey (key : α → Nat) (l : List α) : List α :=
  l.insertionSort (fun a b => key a ≤ key b)

/-- `Player.has_selected_card` (player.py lines 81-88). -/
def Player.has_selected_card (p : Player) : Bool := p.selected_card.isSome

/-- `Player.deal_cards` (player.py lines 90-97): extend the hand and sort
ascending. -/
def Player.deal_cards (p : Player) (cs : List Nat) : Player :=
  { p with hand := sortByKey id (p.hand ++ cs) }

/-- `Player.has_card` (player.py lines 99-108). -/
def Player.has_card (p : Player) (c : Nat) : Bool := p.hand.contains c

/-- `Player.select_card` (player.py lines 110-124): the card must be in hand
and no selection pending. -/
def Player.select_card (p : Player) (c : Nat) : Except String Player :=
  if ¬ p.hand.contains c then
    .error "Card not in hand"
  else if p.selected_card.isSome then
    .error "Player has already selected a card this turn"
  else
    .ok { p with selected_card := some c }

/-- `Player.play_selected_card` (player.py lines 126-141): remove the selected
card from the hand (first occurrence, as Python `list.remove`) and clear the
selection. -/
def Player.play_selected_card (p : Player) : Except String (Nat × Player) :=
  match p.selected_card with
  | none => .error "No card selected"
  | some c => .ok (c, { p with hand := p.hand.erase c, selected_card := none })

/-- `Player.add_penalty_points` (player.py lines 143-155): points are
non-negative by the Nat embedding; add to both scores. -/
def Player.add_penalty_points (p : Player) (pts : Nat) : Player :=
  { p with round_score := p.round_score + pts, total_score := p.total_score + pts }

/-- `Player.reset_round_score` (player.py lines 157-159). -/
def Player.reset_round_score (p : Player) : Player :=
  { p with round_score := 0 }

/-- `Player.clear_selection` (player.py lines 161-163). -/
def Player.clear_selection (p : Player) : Player :=
  { p with selected_card := none }

/-! ## Rules (src/src/game/rules.py, class GameRules) -/

/-- `GameRules.GAME_END_SCORE`. -/
def GAME_END_SCORE : Nat := 50

/-- `GameRules.is_game_over` (rules.py lines 64-74): some player's total
score strictly exceeds 50. -/
def is_game_over (ps : List Player) : Bool :=
  ps.any (fun p => p.total_score > GAME_END_SCORE)

/-- The running-minimum step of Python `min(..., key=total_score)`: the
current best is replaced only on a strictly smaller key, so the first
minimum wins. -/
def min_step (best q : Player) : Player :=
  if q.total_score < best.total_score then q else best

/-- `GameRules.find_winner` (rules.py lines 76-91): Python `min(players,
key=total_score)` — the first player with the smallest total. Errors on an
empty list. -/
def find_winner (ps : List Player) : Except String Player :=
  match ps with
  | [] => .error "No players to determine winner"
  | p :: rest => .ok (rest.foldl min_step p)

/-- `GameRules.all_players_selected` (rules.py lines 105-115). -/
def all_players_selected (ps : List Player) : Bool :=
  ps.all Player.has_selected_card

/-- `GameRules.calculate_penalty_points` (rules.py lines 117-127). -/
def calculate_penalty_points (cs : List Nat) : Nat :=
  (cs.map points).sum

/-- The sort key of `GameRules.sort_players_by_card_value`: the selected
card value of the player at an index. -/
def sel_key (ps : List Player) (i : Nat) : Nat :=
  ((ps.getD i default).selected_card).getD 0

/-- `GameRules.sort_players_by_card_value` (rules.py lines 129-142), on
player indices: Python sorts the (aliased) player objects of `_players`
with the stable `sorted`; filtering the indices of selected players and
stably sorting them by selected-card value visits exactly the same players
in the same order. -/
def sorted_selected_indices (ps : List Player) : List Nat :=
  sortByKey (sel_key ps)
    ((List.range ps.length).filter (fun i => (ps.getD i default).has_selected_card))

/-! ## Game (src/src/game/game.py)

`Game` carries the players, the table and the `GameState` fields the claims
touch. Python iterates over sorted aliases of the `_players` objects and
mutates them in place; the embedding iterates over the sorted indices and
writes the updated player back into the list. -/

structure Game where
  players : List Player
  table : Table
  turn_number : Nat
  is_game_over_flag : Bool
  winner : Option Player
  deriving Repr, DecidableEq

/-- One turn-result entry: (player as of the end of the turn, played card,
row index, wiped cards or none). -/
abbrev TurnResult := Player × Nat × Nat × Option (List Nat)

/-- `Game._get_row_choice_for_player` (game.py lines 173-183): the default
row choice is the minimum of the available choices. -/
def get_row_choice_for_player (choices : List Nat) : Nat :=
  (choices.min?).getD 0

/-- `Game._process_forced_wipe` (game.py lines 153-171): consume the
player's recorded override if present (and clear it), else fall back to the
default choice; then place with a forced row. Returns the updated player,
the updated table, the row index and the wiped cards. -/
def process_forced_wipe (t : Table) (p : Player) (c : Nat) :
    Except String (Player × Table × Nat × Option (List Nat)) :=
  let choice_and_player : Nat × Player :=
    match p.forced_row_choice with
    | some r => (r, { p with forced_row_choice := none })
    | none => (get_row_choice_for_player (t.get_row_choices), p)
  match t.place_card c (some choice_and_player.1) with
  | .error e => .error e
  | .ok (t', idx, wiped) => .ok (choice_and_player.2, t', idx, wiped)

/-- The body of the `for player in sorted_players` loop of
`Game.process_turn` (game.py lines 136-149) for the player at index `i`:
play the selected card, place it (forced or normal), credit the penalty for
any wiped cards, and write the player back. -/
def process_one (g : Game) (i : Nat) : Except String (Game × TurnResult) :=
  match (g.players.getD i default).play_selected_card with
  | .error e => .error e
  | .ok (card, p1) =>
    let placed : Except String (Player × Table × Nat × Option (List Nat)) :=
      if g.table.must_wipe_row card then
        process_forced_wipe g.table p1 card
      else
        match g.table.place_card card none with
        | .error e => .error e
        | .ok (t', idx, wiped) => .ok (p1, t', idx, wiped)
    match placed with
    | .error e => .error e
    | .ok (p2, t', idx, wiped) =>
      let pen := calculate_penalty_points (wiped.getD [])
      let p3 := p2.add_penalty_points pen
      .ok ({ g with players := g.players.set i p3, table := t' }, (p3, card, idx, wiped))

/-- The `for` loop of `Game.process_turn`: process the sorted players one
after the other, accumulating the turn results. -/
def process_players (g : Game) : List Nat → List TurnResult → Except String (Game × List TurnResult)
  | [], acc => .ok (g, acc)
  | i :: rest, acc =>
    match process_one g i with
    | .error e => .error e
    | .ok (g', res) => process_players g' rest (acc ++ [res])

/-- `Game.process_turn` (game.py lines 119-151): fail unless every player
has a selection; otherwise bump the turn number and process the players in
ascending order of selected-card value. -/
def process_turn (g : Game) : Except String (Game × List TurnResult) :=
  if ¬ all_players_selected g.players then
    .error "Not all players have selected cards"
  else
    process_players { g with turn_number := g.turn_number + 1 }
      (sorted_selected_indices g.players) []

/-- `Game.set_forced_row_choice` (game.py lines 185-197) for the player at
index `i`: validate the row index and record the override on the player. -/
def set_forced_row_choice (g : Game) (i : Nat) (row : Nat) : Except String Game :=
  if ¬ row < NUM_ROWS then
    .error "Row index must be 0-3"
  else
    .ok { g with players :=
      g.players.set i { g.players.getD i default with forced_row_choice := some row } }

/-- `Game.check_game_end` (game.py lines 207-217): when the game-over rule
fires, freeze the flag and the winner; otherwise leave the state untouched.
Returns the updated game and the boolean result. -/
def check_game_end (g : Game) : Game × Bool :=
  if is_game_over g.players then
    ({ g with is_game_over_flag := true,
              winner := match find_winner g.players with
                        | .ok p => some p
                        | .error _ => none }, true)
  else
    (g, false)

/-- The loop body of `Game.get_players_needing_row_choice` (game.py lines
260-269) on the preview table: a selected card that must wipe is recorded
and row 0 of the preview table is reset to that card; otherwise the card is
placed normally on the preview table (which cannot fail there, so the error
branch keeps the table). -/
def preview_step (t : Table) (p : Player) : Table × Option (Player × Nat) :=
  match p.selected_card with
  | none => (t, none)
  | some c =>
    if t.must_wipe_row c then
      (⟨t.rows.set 0 ⟨[c]⟩⟩, some (p, c))
    else
      match t.place_card c none with
      | .ok (t', _, _) => (t', none)
      | .error _ => (t, none)

/-- The preview loop of `Game.get_players_needing_row_choice` over the
sorted players. -/
def preview_loop (t : Table) : List Player → List (Player × Nat)
  | [] => []
  | p :: rest =>
    let (t', hit) := preview_step t p
    match hit with
    | some pc => pc :: preview_loop t' rest
    | none => preview_loop t' rest

/-- `Game.get_players_needing_row_choice` (game.py lines 246-271): simulate
the pending turn on a private copy of the table (the card-by-card rebuild
of `temp_table` reconstructs a table equal to the live one) and collect the
(player, selected card) pairs that would be forced to wipe, in sorted
order. -/
def get_players_needing_row_choice (g : Game) : List (Player × Nat) :=
  preview_loop g.table
    ((sorted_selected_indices g.players).map (fun i => g.players.getD i default))

/-- The players that actually enter the forced-wipe branch during
`process_turn`, with their played cards: the same loop as
`process_players`, recording the player and card whenever
`must_wipe_row` holds at that player's moment. -/
def real_forced_pairs (g : Game) : List Nat → List (Player × Nat)
  | [] => []
  | i :: rest =>
    match process_one g i with
    | .error _ => []
    | .ok (g', _) =>
      match (g.players.getD i default).selected_card with
      | none => real_forced_pairs g' rest
      | some c =>
        if g.table.must_wipe_row c then
          (g.players.getD i default, c) :: real_forced_pairs g' rest
        else
          real_forced_pairs g' rest

/-! ## Theorems -/

/-- C4: for every identity in 1..104 the points value follows the
55 / %11 / %10 / %5 / default chain in that order; in particular 55 is
worth 7 although it is divisible by both 5 and 11. -/
theorem points_spec :
    (∀ v : Nat, 1 ≤ v → v ≤ 104 → points v = spec_points v) ∧
    points 55 = 7 ∧ 55 % 5 = 0 ∧ 55 % 11 = 0 := by
  refine ⟨?_, by decide, by decide, by decide⟩
  intro v h1 h104
  have hv : v < 105 := Nat.lt_succ_of_le h104
  revert h1
  revert hv
  revert v
  decide

/-- C4 witness: the theorem applied at identity 55. -/
theorem points_spec_witness :
    1 ≤ 55 ∧ 55 ≤ 104 ∧ points 55 = spec_points 55 :=
  ⟨by decide, by decide, points_spec.1 55 (by decide) (by decide)⟩

/-- `deal_loop` dealt exactly from the back of the deck. -/
theorem deal_loop_ok (n : Nat) :
    ∀ d : List Nat, n ≤ d.length →
      deal_loop n d =
        .ok ((d.drop (d.length - n)).reverse, d.take (d.length - n)) := by
  induction n with
  | zero =>
    intro d _
    simp [deal_loop]
  | succ n ih =>
    intro d hn
    have hd : d ≠ [] := by
      intro h
      subst h
      simp at hn
    obtain ⟨d', c, rfl⟩ : ∃ d' c, d = d' ++ [c] :=
      ⟨d.dropLast, d.getLast hd, (List.dropLast_append_getLast hd).symm⟩
    have hlen : (d' ++ [c]).length = d'.length + 1 := by simp
    have hn' : n ≤ d'.length := by
      have := hn
      rw [hlen] at this
      omega
    have hlast : (d' ++ [c]).getLast? = some c := by
      simp [List.getLast?_append]
    have hdrop : (d' ++ [c]).dropLast = d' := by
      simp
    rw [deal_loop, deal_card, hlast]
    simp only [hdrop]
    rw [ih d' hn']
    have h1 : (d' ++ [c]).length - (n + 1) = d'.length - n := by
      rw [hlen]; omega
    have h2 : (d' ++ [c]).drop (d'.length - n) = d'.drop (d'.length - n) ++ [c] := by
      rw [List.drop_append_of_le_length (by omega)]
    have h3 : (d' ++ [c]).take (d'.length - n) = d'.take (d'.length - n) := by
      rw [List.take_append_of_le_length (by omega)]
    rw [h1, h2, h3]
    simp

/-- C8: `dealMany` fails exactly when more cards are requested than remain
(leaving the deck unchanged, there being no partial result); otherwise it
returns exactly `count` cards, and the dealt cards together with the new
deck partition the old deck (the dealt cards are taken off the back). -/
theorem deal_cards_spec (count : Nat) (d : List Nat) :
    (count > d.length → deal_cards count d = .error "Cannot deal: not enough cards remaining") ∧
    (count ≤ d.length →
      ∃ dealt rest, deal_cards count d = .ok (dealt, rest) ∧
        dealt.length = count ∧ rest.length = d.length - count ∧
        rest ++ dealt.reverse = d) := by
  constructor
  · intro h
    simp [deal_cards, h]
  · intro h
    refine ⟨(d.drop (d.length - count)).reverse, d.take (d.length - count), ?_, ?_, ?_, ?_⟩
    · rw [deal_cards, if_neg (by omega)]
      exact deal_loop_ok count d h
    · simp
      omega
    · simp
    · simp

/-- C8 witness: dealing 2 cards from the 3-card deck [1,2,3]. -/
theorem deal_cards_spec_witness :
    (2 > [1,2,3].length → deal_cards 2 [1,2,3] = .error "Cannot deal: not enough cards remaining") ∧
    (2 ≤ [1,2,3].length →
      ∃ dealt rest, deal_cards 2 [1,2,3] = .ok (dealt, rest) ∧
        dealt.length = 2 ∧ rest.length = [1,2,3].length - 2 ∧
        rest ++ dealt.reverse = [1,2,3]) :=
  deal_cards_spec 2 [1,2,3]

/-- C3: `Row.place` on a (non-empty, at-most-5-card) row fails exactly when
the card is not strictly greater than the row's last card or the row
already holds 5 cards; on success it appends the card, and exactly when
the row thereby reaches capacity it returns the prior cards (the first 4 of
the now-full row) as wiped, leaving only the just-placed card. -/
theorem row_place_spec (r : Row) (c : Nat)
    (_hne : r.cards ≠ []) (hcap : r.cards.length ≤ 5) :
    ((¬ c > r.last_card ∨ r.cards.length = 5) → ∃ e, r.place_card c = .error e) ∧
    (c > r.last_card → r.cards.length < 5 →
      (r.cards.length = 4 → r.place_card c = .ok (⟨[c]⟩, some r.cards)) ∧
      (r.cards.length < 4 → r.place_card c = .ok (⟨r.cards ++ [c]⟩, none))) := by
  constructor
  · rintro (h | h)
    · exact ⟨_, by rw [Row.place_card, if_pos h]⟩
    · by_cases hgt : c > r.last_card
      · exact ⟨"Cannot place card in full row", by
          rw [Row.place_card, if_neg (by omega),
            if_pos (by simp [Row.is_full, MAX_CARDS, h])]⟩
      · exact ⟨_, by rw [Row.place_card, if_pos hgt]⟩
  · intro hgt hlt
    have hfull : r.is_full = false := by
      simp [Row.is_full, MAX_CARDS]
      omega
    constructor
    · intro h4
      rw [Row.place_card, if_neg (by omega), if_neg (by simp [hfull])]
      rw [if_pos (by simp [MAX_CARDS, h4])]
      simp
    · intro h4
      rw [Row.place_card, if_neg (by omega), if_neg (by simp [hfull])]
      rw [if_neg (by simp [MAX_CARDS]; omega)]

/-- C3 witness: placing 9 on the 4-card row [1,2,3,8] wipes [1,2,3,8]. -/
theorem row_place_spec_witness :
    ((⟨[1,2,3,8]⟩ : Row).cards ≠ [] ∧ (⟨[1,2,3,8]⟩ : Row).cards.length ≤ 5) ∧
    (((¬ 9 > (⟨[1,2,3,8]⟩ : Row).last_card ∨ (⟨[1,2,3,8]⟩ : Row).cards.length = 5) →
        ∃ e, (⟨[1,2,3,8]⟩ : Row).place_card 9 = .error e) ∧
      (9 > (⟨[1,2,3,8]⟩ : Row).last_card → (⟨[1,2,3,8]⟩ : Row).cards.length < 5 →
        ((⟨[1,2,3,8]⟩ : Row).cards.length = 4 →
          (⟨[1,2,3,8]⟩ : Row).place_card 9 = .ok (⟨[9]⟩, some (⟨[1,2,3,8]⟩ : Row).cards)) ∧
        ((⟨[1,2,3,8]⟩ : Row).cards.length < 4 →
          (⟨[1,2,3,8]⟩ : Row).place_card 9 = .ok (⟨(⟨[1,2,3,8]⟩ : Row).cards ++ [9]⟩, none)))) :=
  ⟨⟨by decide, by decide⟩, row_place_spec ⟨[1,2,3,8]⟩ 9 (by decide) (by decide)⟩

/-- The Player invariant of the data model: a pending selection is always an
element of the hand. -/
def selection_in_hand (p : Player) : Prop :=
  ∀ c, p.selected_card = some c → c ∈ p.hand

/-- Membership is preserved by the stable key-sort. -/
theorem mem_sortByKey (key : α → Nat) (l : List α) (x : α) :
    x ∈ sortByKey key l ↔ x ∈ l :=
  (List.perm_insertionSort (fun a b => key a ≤ key b) l).mem_iff

/-- C9: every Player operation preserves the selection-in-hand invariant:
`select_card` only records a card it found in the hand, `play_selected_card`
clears the selection while removing the card, and the remaining operations
leave the selection in the (possibly extended) hand. -/
theorem player_invariant_spec (p : Player) (hinv : selection_in_hand p) :
    (∀ c p', p.select_card c = .ok p' → selection_in_hand p') ∧
    (∀ c p', p.play_selected_card = .ok (c, p') → selection_in_hand p') ∧
    (∀ cs, selection_in_hand (p.deal_cards cs)) ∧
    selection_in_hand p.clear_selection ∧
    (∀ n, selection_in_hand (p.add_penalty_points n)) ∧
    selection_in_hand p.reset_round_score := by
  refine ⟨?_, ?_, ?_, ?_, ?_, ?_⟩
  · intro c p' h
    rw [Player.select_card] at h
    split at h
    · exact absurd h (by simp)
    · split at h
      · exact absurd h (by simp)
      · simp only [Except.ok.injEq] at h
        subst h
        intro c' hc'
        simp at hc'
        subst hc'
        have : p.hand.contains c = true := by
          by_contra hcon
          simp_all
        simpa using this
  · intro c p' h
    rw [Player.play_selected_card] at h
    split at h
    · exact absurd h (by simp)
    · simp only [Except.ok.injEq, Prod.mk.injEq] at h
      intro c' hc'
      rw [← h.2] at hc'
      simp at hc'
  · intro cs c hc
    rw [Player.deal_cards] at hc
    simp only at hc
    rw [Player.deal_cards]
    simp only [mem_sortByKey, List.mem_append]
    exact Or.inl (hinv c hc)
  · intro c hc
    rw [Player.clear_selection] at hc
    simp at hc
  · intro n c hc
    rw [Player.add_penalty_points] at hc
    exact hinv c hc
  · intro c hc
    rw [Player.reset_round_score] at hc
    exact hinv c hc

/-- C9 witness: the theorem applied to a player holding cards [3,5] with 3
selected. -/
theorem player_invariant_spec_witness :
    selection_in_hand ⟨"A", [3,5], 0, 0, some 3, none⟩ ∧
    ((∀ c p', (⟨"A", [3,5], 0, 0, some 3, none⟩ : Player).select_card c = .ok p' →
        selection_in_hand p') ∧
      (∀ c p', (⟨"A", [3,5], 0, 0, some 3, none⟩ : Player).play_selected_card = .ok (c, p') →
        selection_in_hand p') ∧
      (∀ cs, selection_in_hand ((⟨"A", [3,5], 0, 0, some 3, none⟩ : Player).deal_cards cs)) ∧
      selection_in_hand (⟨"A", [3,5], 0, 0, some 3, none⟩ : Player).clear_selection ∧
      (∀ n, selection_in_hand ((⟨"A", [3,5], 0, 0, some 3, none⟩ : Player).add_penalty_points n)) ∧
      selection_in_hand (⟨"A", [3,5], 0, 0, some 3, none⟩ : Player).reset_round_score) :=
  have h : selection_in_hand ⟨"A", [3,5], 0, 0, some 3, none⟩ := by
    intro c hc
    simp only [Option.some.injEq] at hc
    subst hc
    simp
  ⟨h, player_invariant_spec _ h⟩

/-- The running-minimum fold of `find_winner` yields the earliest player
with the minimal total score: either the seed is already minimal and kept,
or the result sits at an index all of whose predecessors have strictly
larger totals. -/
theorem fold_min_first (l : List Player) :
    ∀ b : Player,
      (l.foldl min_step b = b ∧ ∀ q ∈ l, b.total_score ≤ q.total_score) ∨
      (∃ k, ∃ hk : k < l.length,
        l.get ⟨k, hk⟩ = l.foldl min_step b ∧
        (l.foldl min_step b).total_score < b.total_score ∧
        (∀ q ∈ l, (l.foldl min_step b).total_score ≤ q.total_score) ∧
        ∀ j, ∀ hj : j < l.length, j < k →
          (l.foldl min_step b).total_score < (l.get ⟨j, hj⟩).total_score) := by
  induction l with
  | nil =>
    intro b
    exact Or.inl ⟨rfl, by simp⟩
  | cons x xs ih =>
    intro b
    have hfold : (x :: xs).foldl min_step b = xs.foldl min_step (min_step b x) :=
      List.foldl_cons ..
    by_cases hx : x.total_score < b.total_score
    · have hstep : min_step b x = x := if_pos hx
      rcases ih x with ⟨heq, hmin⟩ | ⟨k, hk, hget, hlt, hmin, hfirst⟩
      · refine Or.inr ⟨0, by simp, ?_, ?_, ?_, ?_⟩
        · rw [hfold, hstep, heq]
          rfl
        · rw [hfold, hstep, heq]
          exact hx
        · intro q hq
          rw [hfold, hstep, heq]
          rcases List.mem_cons.1 hq with rfl | hq
          · exact le_refl _
          · exact hmin q hq
        · intro j hj hj0
          omega
      · refine Or.inr ⟨k + 1, by simpa using hk, ?_, ?_, ?_, ?_⟩
        · rw [hfold, hstep]
          exact hget
        · rw [hfold, hstep]
          exact lt_trans hlt hx
        · intro q hq
          rw [hfold, hstep]
          rcases List.mem_cons.1 hq with rfl | hq
          · exact le_of_lt hlt
          · exact hmin q hq
        · intro j hj hjk
          rw [hfold, hstep]
          match j, hj with
          | 0, hj => exact hlt
          | j + 1, hj =>
            have hj' : j < xs.length := by simpa using hj
            exact hfirst j hj' (by omega)
    · have hstep : min_step b x = b := if_neg hx
      rcases ih b with ⟨heq, hmin⟩ | ⟨k, hk, hget, hlt, hmin, hfirst⟩
      · refine Or.inl ⟨by rw [hfold, hstep, heq], ?_⟩
        intro q hq
        rcases List.mem_cons.1 hq with rfl | hq
        · omega
        · exact hmin q hq
      · refine Or.inr ⟨k + 1, by simpa using hk, ?_, ?_, ?_, ?_⟩
        · rw [hfold, hstep]
          exact hget
        · rw [hfold, hstep]
          exact hlt
        · intro q hq
          rw [hfold, hstep]
          rcases List.mem_cons.1 hq with rfl | hq
          · omega
          · exact hmin q hq
        · intro j hj hjk
          rw [hfold, hstep]
          match j, hj with
          | 0, hj =>
            show (xs.foldl min_step b).total_score < x.total_score
            omega
          | j + 1, hj =>
            have hj' : j < xs.length := by simpa using hj
            exact hfirst j hj' (by omega)

/-- `find_winner` on a non-empty list returns a player of minimal total
score that belongs to the list. -/
theorem find_winner_min (ps : List Player) (w : Player) (h : find_winner ps = .ok w) :
    w ∈ ps ∧ ∀ q ∈ ps, w.total_score ≤ q.total_score := by
  match ps with
  | [] => simp [find_winner] at h
  | p :: rest =>
    simp only [find_winner, Except.ok.injEq] at h
    rcases fold_min_first rest p with ⟨heq, hmin⟩ | ⟨k, hk, hget, hlt, hmin, _⟩
    · rw [heq] at h
      subst h
      exact ⟨List.mem_cons_self _ _, fun q hq => by
        rcases List.mem_cons.1 hq with rfl | hq
        · exact le_refl _
        · exact hmin q hq⟩
    · rw [h] at hget hlt hmin
      refine ⟨List.mem_cons_of_mem _ (hget ▸ List.get_mem rest k hk), ?_⟩
      intro q hq
      rcases List.mem_cons.1 hq with rfl | hq
      · exact le_of_lt hlt
      · exact hmin q hq

/-- C5: the game is over exactly when some player's total score strictly
exceeds 50; `check_game_end` answers exactly that, and when it fires it
records as winner the `find_winner` player, who belongs to the roster and
has the lowest total score; `find_winner` on an empty roster fails. -/
theorem game_over_winner_spec :
    (∀ ps : List Player, is_game_over ps = true ↔ ∃ p ∈ ps, p.total_score > GAME_END_SCORE) ∧
    find_winner [] = .error "No players to determine winner" ∧
    ∀ g : Game,
      ((check_game_end g).2 = true ↔ is_game_over g.players = true) ∧
      (is_game_over g.players = true →
        ∃ w, (check_game_end g).1.winner = some w ∧ find_winner g.players = .ok w ∧
          w ∈ g.players ∧ ∀ q ∈ g.players, w.total_score ≤ q.total_score) := by
  refine ⟨?_, rfl, ?_⟩
  · intro ps
    simp [is_game_over]
  · intro g
    constructor
    · rw [check_game_end]
      split
      · simp_all
      · simp_all
    · intro hover
      have hne : g.players ≠ [] := by
        intro h
        rw [h] at hover
        simp [is_game_over] at hover
      obtain ⟨p, rest, hps⟩ : ∃ p rest, g.players = p :: rest := by
        cases hg : g.players with
        | nil => exact absurd hg hne
        | cons p rest => exact ⟨p, rest, rfl⟩
      have hw : find_winner g.players = .ok (rest.foldl min_step p) := by
        rw [hps]
        rfl
      set w := rest.foldl min_step p with hwdef
      have hmin := find_winner_min g.players w hw
      refine ⟨w, ?_, hw, hmin.1, hmin.2⟩
      rw [check_game_end, if_pos hover]
      simp only
      rw [hw]

/-- C5 witness: the theorem specialised to a two-player game in which the
first player has 60 points, so the game is over and the 10-point player is
recorded as winner. -/
theorem game_over_winner_spec_witness :
    is_game_over [⟨"A", [], 60, 0, none, none⟩, ⟨"B", [], 10, 0, none, none⟩] = true ∧
    (∃ w, (check_game_end ⟨[⟨"A", [], 60, 0, none, none⟩, ⟨"B", [], 10, 0, none, none⟩],
        ⟨[]⟩, 0, false, none⟩).1.winner = some w ∧
      find_winner [⟨"A", [], 60, 0, none, none⟩, ⟨"B", [], 10, 0, none, none⟩] = .ok w ∧
      w ∈ [⟨"A", [], 60, 0, none, none⟩, ⟨"B", [], 10, 0, none, none⟩] ∧
      ∀ q ∈ [(⟨"A", [], 60, 0, none, none⟩ : Player), ⟨"B", [], 10, 0, none, none⟩],
        w.total_score ≤ q.total_score) :=
  ⟨by decide,
    (game_over_winner_spec.2.2 ⟨[⟨"A", [], 60, 0, none, none⟩, ⟨"B", [], 10, 0, none, none⟩],
      ⟨[]⟩, 0, false, none⟩).2 (by decide)⟩

/-- C10: `find_winner` returns the earliest player of minimal total score:
it sits at an index every predecessor of which has a strictly larger
total (so at a tie the player constructed first wins), and `check_game_end`
records exactly this player when the game ends. -/
theorem find_winner_earliest_spec (ps : List Player) (w : Player)
    (h : find_winner ps = .ok w) :
    (∃ k, ∃ hk : k < ps.length, ps.get ⟨k, hk⟩ = w ∧
      (∀ q ∈ ps, w.total_score ≤ q.total_score) ∧
      ∀ j, ∀ hj : j < ps.length, j < k →
        w.total_score < (ps.get ⟨j, hj⟩).total_score) ∧
    ∀ g : Game, g.players = ps → is_game_over ps = true →
      (check_game_end g).1.winner = some w := by
  constructor
  · match ps with
    | [] => simp [find_winner] at h
    | p :: rest =>
      simp only [find_winner, Except.ok.injEq] at h
      rcases fold_min_first rest p with ⟨heq, hmin⟩ | ⟨k, hk, hget, hlt, hmin, hfirst⟩
      · rw [heq] at h
        subst h
        refine ⟨0, by simp, rfl, ?_, ?_⟩
        · intro q hq
          rcases List.mem_cons.1 hq with rfl | hq
          · exact le_refl _
          · exact hmin q hq
        · intro j hj hj0
          omega
      · rw [h] at hget hlt hmin hfirst
        refine ⟨k + 1, by simpa using hk, by simpa using hget, ?_, ?_⟩
        · intro q hq
          rcases List.mem_cons.1 hq with rfl | hq
          · exact le_of_lt hlt
          · exact hmin q hq
        · intro j hj hjk
          match j with
          | 0 => exact hlt
          | j + 1 =>
            have hj' : j < rest.length := by simpa using hj
            exact hfirst j hj' (by omega)
  · intro g hg hover
    rw [check_game_end, if_pos (hg ▸ hover)]
    simp only
    rw [hg, h]

/-- C10 witness: the theorem at a roster where the 2nd and 3rd players tie
at 5 points: the winner is the tied player constructed first (index 1). -/
theorem find_winner_earliest_spec_witness :
    find_winner [⟨"A", [], 60, 0, none, none⟩, ⟨"B", [], 5, 0, none, none⟩,
        ⟨"C", [], 5, 0, none, none⟩] = .ok ⟨"B", [], 5, 0, none, none⟩ ∧
    ((∃ k, ∃ hk : k < [⟨"A", [], 60, 0, none, none⟩, ⟨"B", [], 5, 0, none, none⟩,
          (⟨"C", [], 5, 0, none, none⟩ : Player)].length,
        [⟨"A", [], 60, 0, none, none⟩, ⟨"B", [], 5, 0, none, none⟩,
          (⟨"C", [], 5, 0, none, none⟩ : Player)].get ⟨k, hk⟩ = ⟨"B", [], 5, 0, none, none⟩ ∧
        (∀ q ∈ [⟨"A", [], 60, 0, none, none⟩, ⟨"B", [], 5, 0, none, none⟩,
            (⟨"C", [], 5, 0, none, none⟩ : Player)],
          (⟨"B", [], 5, 0, none, none⟩ : Player).total_score ≤ q.total_score) ∧
        ∀ j, ∀ hj : j < [⟨"A", [], 60, 0, none, none⟩, ⟨"B", [], 5, 0, none, none⟩,
            (⟨"C", [], 5, 0, none, none⟩ : Player)].length, j < k →
          (⟨"B", [], 5, 0, none, none⟩ : Player).total_score <
            ([⟨"A", [], 60, 0, none, none⟩, ⟨"B", [], 5, 0, none, none⟩,
              (⟨"C", [], 5, 0, none, none⟩ : Player)].get ⟨j, hj⟩).total_score) ∧
      ∀ g : Game, g.players = [⟨"A", [], 60, 0, none, none⟩, ⟨"B", [], 5, 0, none, none⟩,
          ⟨"C", [], 5, 0, none, none⟩] →
        is_game_over [⟨"A", [], 60, 0, none, none⟩, ⟨"B", [], 5, 0, none, none⟩,
          ⟨"C", [], 5, 0, none, none⟩] = true →
        (check_game_end g).1.winner = some ⟨"B", [], 5, 0, none, none⟩) :=
  ⟨rfl, find_winner_earliest_spec _ _ rfl⟩

/-- `ftr_step` never turns a `some` accumulator back into `none`. -/
theorem ftr_step_of_some (c : Nat) (b : Nat × Nat) (x : Nat × Row) :
    (ftr_step c (some b) x).isSome = true := by
  rw [ftr_step]
  split
  · rcases b with ⟨bi, bg⟩
    simp only
    split <;> rfl
  · rfl

/-- `ftr_step` on a `none` accumulator stays `none` exactly when the row
cannot take the card. -/
theorem ftr_step_of_none (c : Nat) (x : Nat × Row) :
    ftr_step c none x = none ↔ x.2.can_place_card c = false := by
  rw [ftr_step]
  split <;> simp_all

/-- The `ftr_step` fold is `none` exactly when it started at `none` and no
scanned row can take the card. -/
theorem ftr_fold_none (c : Nat) (l : List (Nat × Row)) :
    ∀ acc, l.foldl (ftr_step c) acc = none ↔
      acc = none ∧ ∀ p ∈ l, p.2.can_place_card c = false := by
  induction l with
  | nil =>
    intro acc
    simp
  | cons x xs ih =>
    intro acc
    rw [List.foldl_cons, ih]
    constructor
    · rintro ⟨hstep, hall⟩
      rcases acc with _ | b
      · refine ⟨rfl, ?_⟩
        intro p hp
        rcases List.mem_cons.1 hp with rfl | hp
        · exact (ftr_step_of_none c p).1 hstep
        · exact hall p hp
      · exact absurd hstep (Option.isSome_iff_ne_none.1 (ftr_step_of_some c b x))
    · rintro ⟨rfl, hall⟩
      have hx : x.2.can_place_card c = false := hall x (List.mem_cons_self _ _)
      exact ⟨(ftr_step_of_none c x).2 hx, fun p hp => hall p (List.mem_cons_of_mem _ hp)⟩

/-- Where a `some` result of the `ftr_step` fold comes from: the initial
accumulator or an accepting scanned row, whose gap it records. -/
theorem ftr_fold_src (c : Nat) (l : List (Nat × Row)) :
    ∀ acc bi bg, l.foldl (ftr_step c) acc = some (bi, bg) →
      acc = some (bi, bg) ∨
        ∃ r, (bi, r) ∈ l ∧ r.can_place_card c = true ∧ bg = c - r.last_card := by
  induction l with
  | nil =>
    intro acc bi bg h
    exact Or.inl h
  | cons x xs ih =>
    intro acc bi bg h
    rw [List.foldl_cons] at h
    rcases ih (ftr_step c acc x) bi bg h with hstep | ⟨r, hr, hacc, hgap⟩
    · rw [ftr_step] at hstep
      split at hstep
      · rcases acc with _ | ⟨b0, g0⟩
        · simp only [Option.some.injEq, Prod.mk.injEq] at hstep
          exact Or.inr ⟨x.2, by
            refine ⟨?_, by assumption, hstep.2.symm⟩
            rw [← hstep.1]
            exact List.mem_cons_self _ _⟩
        · simp only at hstep
          split at hstep
          · simp only [Option.some.injEq, Prod.mk.injEq] at hstep
            exact Or.inr ⟨x.2, by
              refine ⟨?_, by assumption, hstep.2.symm⟩
              rw [← hstep.1]
              exact List.mem_cons_self _ _⟩
          · exact Or.inl hstep
      · exact Or.inl hstep
    · exact Or.inr ⟨r, List.mem_cons_of_mem _ hr, hacc, hgap⟩

/-- The gap recorded by a `some` result of the `ftr_step` fold is at most
the gap of every accepting scanned row and at most the initial gap. -/
theorem ftr_fold_min (c : Nat) (l : List (Nat × Row)) :
    ∀ acc bi bg, l.foldl (ftr_step c) acc = some (bi, bg) →
      (∀ p ∈ l, p.2.can_place_card c = true → bg ≤ c - p.2.last_card) ∧
      (∀ b0 g0, acc = some (b0, g0) → bg ≤ g0) := by
  induction l with
  | nil =>
    intro acc bi bg h
    refine ⟨by simp, ?_⟩
    intro b0 g0 hacc
    rw [hacc] at h
    simp only [List.foldl_nil, Option.some.injEq, Prod.mk.injEq] at h
    omega
  | cons x xs ih =>
    intro acc bi bg h
    rw [List.foldl_cons] at h
    obtain ⟨hxs, hstep⟩ := ih (ftr_step c acc x) bi bg h
    have hstep_le : ∀ b1 g1, ftr_step c acc x = some (b1, g1) →
        (x.2.can_place_card c = true → g1 ≤ c - x.2.last_card) ∧
        (∀ b0 g0, acc = some (b0, g0) → g1 ≤ g0) := by
      intro b1 g1 hs
      rw [ftr_step] at hs
      split at hs
      · rcases acc with _ | ⟨b0, g0⟩
        · simp only [Option.some.injEq, Prod.mk.injEq] at hs
          exact ⟨fun _ => by omega, by simp⟩
        · simp only at hs
          split at hs <;>
            simp only [Option.some.injEq, Prod.mk.injEq] at hs <;>
            constructor <;> intros <;> simp_all <;> omega
      · rcases acc with _ | ⟨b0, g0⟩
        · simp at hs
        · simp only [Option.some.injEq, Prod.mk.injEq] at hs
          refine ⟨fun hacc => ?_, by simp_all⟩
          simp_all [ftr_step]
    constructor
    · intro p hp hpacc
      rcases List.mem_cons.1 hp with rfl | hp
      · rcases hs : ftr_step c acc p with _ | ⟨b1, g1⟩
        · rcases acc with _ | b
          · exact absurd ((ftr_step_of_none c p).1 hs) (by simp [hpacc])
          · exact absurd hs (Option.isSome_iff_ne_none.1 (ftr_step_of_some c b p))
        · have h1 := (hstep_le b1 g1 hs).1 hpacc
          have h2 := hstep b1 g1 hs
          omega
      · exact hxs p hp hpacc
    · intro b0 g0 hacc
      rcases hs : ftr_step c acc x with _ | ⟨b1, g1⟩
      · rw [hacc] at hs
        exact absurd hs (Option.isSome_iff_ne_none.1 (ftr_step_of_some c (b0, g0) x))
      · have h1 := (hstep_le b1 g1 hs).2 b0 g0 hacc
        have h2 := hstep b1 g1 hs
        omega

/-- Index-based membership in the enumerated row list. -/
theorem mem_enum_rows (rows : List Row) (j : Nat) (hj : j < rows.length) :
    (j, rows.getD j default) ∈ rows.enum := by
  rw [List.mem_enum_iff_getElem?]
  rw [List.getD_eq_getElem rows default hj]
  exact List.getElem?_eq_getElem hj

/-- `find_target_row` finds no target exactly when no row can take the
card. -/
theorem find_target_row_none_iff (t : Table) (c : Nat) :
    t.find_target_row c = none ↔
      ∀ j, j < t.rows.length → (t.rows.getD j default).can_place_card c = false := by
  rw [Table.find_target_row, Option.map_eq_none', ftr_fold_none]
  constructor
  · rintro ⟨-, hall⟩ j hj
    exact hall (j, t.rows.getD j default) (mem_enum_rows t.rows j hj)
  · intro hall
    refine ⟨rfl, ?_⟩
    rintro ⟨j, r⟩ hp
    rw [List.mem_enum_iff_getElem?] at hp
    have hj : j < t.rows.length := (List.getElem?_eq_some.1 hp).1
    have hr : t.rows.getD j default = r := by
      rw [List.getD_eq_getElem t.rows default hj]
      exact Option.some_injective _ ((List.getElem?_eq_getElem hj).symm.trans hp)
    exact hr ▸ hall j hj

/-- A `some` result of `find_target_row` is a valid index of a row that
accepts the card with the smallest gap among all accepting rows. -/
theorem find_target_row_some (t : Table) (c : Nat) (i : Nat)
    (h : t.find_target_row c = some i) :
    i < t.rows.length ∧ (t.rows.getD i default).can_place_card c = true ∧
      ∀ j, j < t.rows.length → (t.rows.getD j default).can_place_card c = true →
        c - (t.rows.getD i default).last_card ≤ c - (t.rows.getD j default).last_card := by
  rw [Table.find_target_row, Option.map_eq_some'] at h
  obtain ⟨⟨bi, bg⟩, hfold, hfst⟩ := h
  simp only at hfst
  rw [hfst] at hfold
  rcases ftr_fold_src c t.rows.enum none i bg hfold with h0 | ⟨r, hmem, haccept, hgap⟩
  · simp at h0
  · rw [List.mem_enum_iff_getElem?] at hmem
    have hi : i < t.rows.length := (List.getElem?_eq_some.1 hmem).1
    have hr : t.rows.getD i default = r := by
      rw [List.getD_eq_getElem t.rows default hi]
      exact Option.some_injective _ ((List.getElem?_eq_getElem hi).symm.trans hmem)
    have hmin := (ftr_fold_min c t.rows.enum none i bg hfold).1
    refine ⟨hi, hr ▸ haccept, ?_⟩
    intro j hj hjacc
    have := hmin (j, t.rows.getD j default) (mem_enum_rows t.rows j hj) hjacc
    rw [hr, ← hgap]
    exact this

/-- A row that can take a card takes it without error, and afterwards its
last card is the placed card and it is not full. -/
theorem row_place_ok (r : Row) (c : Nat) (h : r.can_place_card c = true) :
    ∃ r' w, r.place_card c = .ok (r', w) ∧ r'.last_card = c ∧ r'.is_full = false := by
  rw [Row.can_place_card, Bool.and_eq_true] at h
  have hgt : c > r.last_card := by
    have := h.1
    simpa using this
  have hnf : r.cards.length < 5 := by
    have := h.2
    simp [Row.is_full, MAX_CARDS] at this
    omega
  rw [Row.place_card, if_neg (by omega)]
  rw [if_neg (by simp [Row.is_full, MAX_CARDS]; omega)]
  by_cases h5 : (r.cards ++ [c]).length ≥ MAX_CARDS
  · rw [if_pos h5]
    exact ⟨⟨[c]⟩, some (r.cards ++ [c]).dropLast, rfl, rfl, rfl⟩
  · rw [if_neg h5]
    refine ⟨⟨r.cards ++ [c]⟩, none, rfl, ?_, ?_⟩
    · exact List.getLastD_concat _ _ _
    · simp [Row.is_full, MAX_CARDS] at h5 ⊢
      omega

/-- When some row accepts the card, normal placement succeeds, preserves
the number of rows, and leaves the target row ending in the placed card
and not full. -/
theorem table_place_none_ok (t : Table) (c : Nat) (h : t.must_wipe_row c = false) :
    ∃ t' i w, t.place_card c none = .ok (t', i, w) ∧
      t'.rows.length = t.rows.length ∧ i < t.rows.length ∧
      (t'.rows.getD i default).last_card = c ∧
      (t'.rows.getD i default).is_full = false := by
  rw [Table.must_wipe_row, Option.isNone_eq_false_iff, Option.isSome_iff_exists] at h
  obtain ⟨i, hi⟩ := h
  obtain ⟨hlen, haccept, -⟩ := find_target_row_some t c i hi
  obtain ⟨r', w, hplace, hlast, hfull⟩ := row_place_ok (t.rows.getD i default) c haccept
  refine ⟨⟨t.rows.set i r'⟩, i, w, ?_, by simp, hlen, ?_, ?_⟩
  · rw [Table.place_card]
    simp only [hi, hplace]
  · simp only
    rw [List.getD_eq_getElem?_getD, List.getElem?_set_self (by simpa using hlen)]
    exact hlast
  · simp only
    rw [List.getD_eq_getElem?_getD, List.getElem?_set_self (by simpa using hlen)]
    exact hfull

/-- C2: with no forced index, `Table.place` puts the card on the accepting
row with the smallest positive gap (`find_target_row`), and fails with the
no-valid-row error exactly when no row accepts the card; a forced index in
0..3 succeeds unconditionally, wiping exactly that row's prior contents and
reseeding it with the card. -/
theorem table_place_spec (t : Table) (c : Nat) (h4 : t.rows.length = 4) :
    (∀ i, t.find_target_row c = some i →
      i < 4 ∧ (t.rows.getD i default).can_place_card c = true ∧
      (∀ j, j < 4 → (t.rows.getD j default).can_place_card c = true →
        c - (t.rows.getD i default).last_card ≤ c - (t.rows.getD j default).last_card) ∧
      ∃ r' w, (t.rows.getD i default).place_card c = .ok (r', w) ∧
        t.place_card c none = .ok (⟨t.rows.set i r'⟩, i, w)) ∧
    (t.find_target_row c = none ↔
      ∀ j, j < 4 → (t.rows.getD j default).can_place_card c = false) ∧
    (t.find_target_row c = none →
      t.place_card c none = .error "Card cannot be placed on any row") ∧
    (∀ i, i < 4 → t.place_card c (some i) =
      .ok (⟨t.rows.set i ⟨[c]⟩⟩, i, some (t.rows.getD i default).cards)) := by
  refine ⟨?_, ?_, ?_, ?_⟩
  · intro i hi
    obtain ⟨hlen, haccept, hmin⟩ := find_target_row_some t c i hi
    obtain ⟨r', w, hplace, -, -⟩ := row_place_ok (t.rows.getD i default) c haccept
    refine ⟨h4 ▸ hlen, haccept, ?_, r', w, hplace, ?_⟩
    · intro j hj hjacc
      exact hmin j (h4 ▸ hj) hjacc
    · rw [Table.place_card]
      simp only [hi, hplace]
  · rw [find_target_row_none_iff, h4]
  · intro hnone
    rw [Table.place_card]
    simp only [hnone]
  · intro i hi
    rw [Table.place_card]
    simp only [NUM_ROWS, hi, if_pos]
    rfl

/-- C2 witness: the theorem at the table with row last cards 10/20/30/40
and the card 25 (which targets the 20-row, gap 5). -/
theorem table_place_spec_witness :
    (⟨[⟨[10]⟩, ⟨[20]⟩, ⟨[30]⟩, ⟨[40]⟩]⟩ : Table).rows.length = 4 ∧
    ((∀ i, (⟨[⟨[10]⟩, ⟨[20]⟩, ⟨[30]⟩, ⟨[40]⟩]⟩ : Table).find_target_row 25 = some i →
      i < 4 ∧ ((⟨[⟨[10]⟩, ⟨[20]⟩, ⟨[30]⟩, ⟨[40]⟩]⟩ : Table).rows.getD i default).can_place_card 25 = true ∧
      (∀ j, j < 4 → ((⟨[⟨[10]⟩, ⟨[20]⟩, ⟨[30]⟩, ⟨[40]⟩]⟩ : Table).rows.getD j default).can_place_card 25 = true →
        25 - ((⟨[⟨[10]⟩, ⟨[20]⟩, ⟨[30]⟩, ⟨[40]⟩]⟩ : Table).rows.getD i default).last_card ≤
          25 - ((⟨[⟨[10]⟩, ⟨[20]⟩, ⟨[30]⟩, ⟨[40]⟩]⟩ : Table).rows.getD j default).last_card) ∧
      ∃ r' w, ((⟨[⟨[10]⟩, ⟨[20]⟩, ⟨[30]⟩, ⟨[40]⟩]⟩ : Table).rows.getD i default).place_card 25 = .ok (r', w) ∧
        (⟨[⟨[10]⟩, ⟨[20]⟩, ⟨[30]⟩, ⟨[40]⟩]⟩ : Table).place_card 25 none =
          .ok (⟨(⟨[⟨[10]⟩, ⟨[20]⟩, ⟨[30]⟩, ⟨[40]⟩]⟩ : Table).rows.set i r'⟩, i, w)) ∧
    ((⟨[⟨[10]⟩, ⟨[20]⟩, ⟨[30]⟩, ⟨[40]⟩]⟩ : Table).find_target_row 25 = none ↔
      ∀ j, j < 4 → ((⟨[⟨[10]⟩, ⟨[20]⟩, ⟨[30]⟩, ⟨[40]⟩]⟩ : Table).rows.getD j default).can_place_card 25 = false) ∧
    ((⟨[⟨[10]⟩, ⟨[20]⟩, ⟨[30]⟩, ⟨[40]⟩]⟩ : Table).find_target_row 25 = none →
      (⟨[⟨[10]⟩, ⟨[20]⟩, ⟨[30]⟩, ⟨[40]⟩]⟩ : Table).place_card 25 none = .error "Card cannot be placed on any row") ∧
    (∀ i, i < 4 → (⟨[⟨[10]⟩, ⟨[20]⟩, ⟨[30]⟩, ⟨[40]⟩]⟩ : Table).place_card 25 (some i) =
      .ok (⟨(⟨[⟨[10]⟩, ⟨[20]⟩, ⟨[30]⟩, ⟨[40]⟩]⟩ : Table).rows.set i ⟨[25]⟩⟩, i,
        some ((⟨[⟨[10]⟩, ⟨[20]⟩, ⟨[30]⟩, ⟨[40]⟩]⟩ : Table).rows.getD i default).cards))) :=
  ⟨rfl, table_place_spec ⟨[⟨[10]⟩, ⟨[20]⟩, ⟨[30]⟩, ⟨[40]⟩]⟩ 25 rfl⟩

/-- The stable key-sort is a permutation of its input. -/
theorem sortByKey_perm (key : α → Nat) (l : List α) : (sortByKey key l).Perm l :=
  List.perm_insertionSort _ l

/-- The stable key-sort sorts by the key. -/
theorem sortByKey_pairwise (key : α → Nat) (l : List α) :
    (sortByKey key l).Pairwise (fun a b => key a ≤ key b) := by
  haveI : IsTotal α (fun a b => key a ≤ key b) := ⟨fun a b => Nat.le_total (key a) (key b)⟩
  haveI : IsTrans α (fun a b => key a ≤ key b) := ⟨fun _ _ _ => Nat.le_trans⟩
  exact List.sorted_insertionSort _ l

/-- The sorted index list visits exactly the indices of players with a
pending selection. -/
theorem mem_sorted_selected_indices (ps : List Player) (i : Nat) :
    i ∈ sorted_selected_indices ps ↔
      i < ps.length ∧ (ps.getD i default).has_selected_card = true := by
  rw [sorted_selected_indices, (sortByKey_perm _ _).mem_iff, List.mem_filter,
    List.mem_range]

/-- The sorted index list has no duplicate indices. -/
theorem sorted_selected_indices_nodup (ps : List Player) :
    (sorted_selected_indices ps).Nodup := by
  rw [sorted_selected_indices]
  exact ((sortByKey_perm _ _).symm).nodup ((List.nodup_range _).filter _)

/-- The sorted index list is ascending in the selected-card values. -/
theorem sorted_selected_indices_sorted (ps : List Player) :
    (sorted_selected_indices ps).Pairwise (fun i j => sel_key ps i ≤ sel_key ps j) :=
  sortByKey_pairwise _ _

/-- One successful pass of the `process_turn` loop body: under a registered
selection, a valid recorded override (if any) and a 4-row table, the player
at index `i` is processed without error, other players are untouched, the
table keeps 4 rows and the reported card is the player's selection. -/
theorem process_one_ok (g : Game) (i : Nat)
    (hsel : ((g.players.getD i default).selected_card).isSome = true)
    (hov : ∀ r, (g.players.getD i default).forced_row_choice = some r → r < NUM_ROWS)
    (h4 : g.table.rows.length = 4) :
    ∃ g' res, process_one g i = .ok (g', res) ∧
      g'.table.rows.length = 4 ∧
      (∃ p', g'.players = g.players.set i p') ∧
      res.2.1 = sel_key g.players i ∧
      g'.turn_number = g.turn_number := by
  obtain ⟨c, hc⟩ := Option.isSome_iff_exists.1 hsel
  have hplay : (g.players.getD i default).play_selected_card =
      .ok (c, { g.players.getD i default with
        hand := (g.players.getD i default).hand.erase c, selected_card := none }) := by
    rw [Player.play_selected_card, hc]
  have hkey : sel_key g.players i = c := by
    rw [sel_key, hc]
    rfl
  rw [process_one, hplay]
  by_cases hm : g.table.must_wipe_row c = true
  · simp only [hm, if_true, reduceIte]
    rw [process_forced_wipe]
    rcases hfo : ({ g.players.getD i default with
        hand := (g.players.getD i default).hand.erase c,
        selected_card := none } : Player).forced_row_choice with _ | r
    · simp only [hfo]
      have h0 : get_row_choice_for_player (g.table.get_row_choices) = 0 := rfl
      rw [h0, Table.place_card]
      rw [if_pos (show (0:Nat) < NUM_ROWS by rw [NUM_ROWS]; omega)]
      simp only [Row.wipe_and_replace]
      exact ⟨_, _, rfl, by simpa using h4, ⟨_, rfl⟩, hkey ▸ rfl, rfl⟩
    · simp only [hfo]
      have hr4 : r < NUM_ROWS := hov r (by simpa using hfo)
      rw [Table.place_card, if_pos hr4]
      simp only [Row.wipe_and_replace]
      exact ⟨_, _, rfl, by simpa using h4, ⟨_, rfl⟩, hkey ▸ rfl, rfl⟩
  · simp only [hm, if_false, reduceIte]
    have hmf : g.table.must_wipe_row c = false := by
      simpa using hm
    obtain ⟨t', j, w, hplace, hlen, -, -, -⟩ := table_place_none_ok g.table c hmf
    rw [hplace]
    exact ⟨_, _, rfl, by rw [hlen, h4], ⟨_, rfl⟩, hkey ▸ rfl, rfl⟩

/-- The fold step of `process_players` absorbs errors. -/
theorem foldl_step_error (idxs : List Nat) (e : String) :
    idxs.foldl
      (fun a i =>
        match a with
        | .error e => .error e
        | .ok (g1, rs) =>
          match process_one g1 i with
          | .error e => .error e
          | .ok (g2, r) => .ok (g2, rs ++ [r]))
      (.error e : Except String (Game × List TurnResult)) = .error e := by
  induction idxs with
  | nil => rfl
  | cons i rest ih =>
    rw [List.foldl_cons]
    exact ih

/-- `process_players` is the left fold of the one-player step over the
index list, threading the game state (in particular the table) through
every step. -/
theorem process_players_eq_foldl (idxs : List Nat) :
    ∀ (g : Game) (acc : List TurnResult),
      process_players g idxs acc =
        idxs.foldl
          (fun a i =>
            match a with
            | .error e => .error e
            | .ok (g1, rs) =>
              match process_one g1 i with
              | .error e => .error e
              | .ok (g2, r) => .ok (g2, rs ++ [r]))
          (.ok (g, acc)) := by
  induction idxs with
  | nil =>
    intro g acc
    rfl
  | cons i rest ih =>
    intro g acc
    rw [process_players, List.foldl_cons]
    rcases hp : process_one g i with e | ⟨g', r⟩
    · simp only [hp]
      exact (foldl_step_error rest e).symm
    · simp only [hp]
      exact ih g' (acc ++ [r])

/-- Under the per-index preconditions, the `process_players` loop succeeds
and reports exactly the selected cards of the visited indices, in order. -/
theorem process_players_ok (idxs : List Nat) :
    ∀ (g : Game) (acc : List TurnResult),
      idxs.Nodup →
      (∀ i ∈ idxs, ((g.players.getD i default).selected_card).isSome = true) →
      (∀ i ∈ idxs, ∀ r, (g.players.getD i default).forced_row_choice = some r →
        r < NUM_ROWS) →
      g.table.rows.length = 4 →
      ∃ g' res, process_players g idxs acc = .ok (g', acc ++ res) ∧
        res.map (fun x => x.2.1) = idxs.map (sel_key g.players) := by
  induction idxs with
  | nil =>
    intro g acc _ _ _ _
    exact ⟨g, [], by simp [process_players], by simp⟩
  | cons i rest ih =>
    intro g acc hnd hsel hov h4
    obtain ⟨g1, r, hone, h4', ⟨p', hset⟩, hcard, -⟩ :=
      process_one_ok g i (hsel i (List.mem_cons_self _ _))
        (hov i (List.mem_cons_self _ _)) h4
    have hpres : ∀ j ∈ rest, g1.players.getD j default = g.players.getD j default := by
      intro j hj
      have hne : i ≠ j := by
        intro hij
        exact (List.nodup_cons.1 hnd).1 (hij ▸ hj)
      rw [hset, List.getD_eq_getElem?_getD, List.getElem?_set_ne hne,
        ← List.getD_eq_getElem?_getD]
    obtain ⟨g', res, hrest, hcards⟩ := ih g1 (acc ++ [r])
      (List.nodup_cons.1 hnd).2
      (fun j hj => (hpres j hj) ▸ hsel j (List.mem_cons_of_mem _ hj))
      (fun j hj => (hpres j hj) ▸ hov j (List.mem_cons_of_mem _ hj))
      h4'
    refine ⟨g', r :: res, ?_, ?_⟩
    · rw [process_players, hone]
      simp only
      rw [hrest, List.append_assoc]
      rfl
    · rw [List.map_cons, List.map_cons, hcard, hcards]
      congr 1
      exact List.map_congr_left fun j hj => by rw [sel_key, sel_key, hpres j hj]

/-- C1: `process_turn` fails with the not-all-selected error when some
player lacks a pending selection (returning no results); when every player
has one (and recorded overrides are valid row indices on a 4-row table) it
succeeds, its loop is the left fold of the one-player step over the indices
sorted ascending by selected-card value, and the processed cards appear in
ascending order. -/
theorem process_turn_spec (g : Game)
    (hov : ∀ i, i < g.players.length →
      ∀ r, (g.players.getD i default).forced_row_choice = some r → r < NUM_ROWS)
    (h4 : g.table.rows.length = 4) :
    (all_players_selected g.players = false →
      process_turn g = .error "Not all players have selected cards") ∧
    (all_players_selected g.players = true →
      process_turn g =
        (sorted_selected_indices g.players).foldl
          (fun a i =>
            match a with
            | .error e => .error e
            | .ok (g1, rs) =>
              match process_one g1 i with
              | .error e => .error e
              | .ok (g2, r) => .ok (g2, rs ++ [r]))
          (.ok ({ g with turn_number := g.turn_number + 1 }, [])) ∧
      ∃ g' res, process_turn g = .ok (g', res) ∧
        res.map (fun x => x.2.1) =
          (sorted_selected_indices g.players).map (sel_key g.players) ∧
        (res.map (fun x => x.2.1)).Pairwise (· ≤ ·)) := by
  constructor
  · intro hns
    rw [process_turn, if_pos (by simp [hns])]
  · intro hall
    have hturn : process_turn g =
        process_players { g with turn_number := g.turn_number + 1 }
          (sorted_selected_indices g.players) [] := by
      rw [process_turn, if_neg (by simp [hall])]
    have hg1 : ({ g with turn_number := g.turn_number + 1 } : Game).players =
        g.players := rfl
    refine ⟨?_, ?_⟩
    · rw [hturn]
      exact process_players_eq_foldl _ _ _
    · obtain ⟨g', res, hok, hcards⟩ :=
        process_players_ok (sorted_selected_indices g.players)
          { g with turn_number := g.turn_number + 1 } []
          (sorted_selected_indices_nodup _)
          (fun i hi => by
            rw [hg1]
            have := ((mem_sorted_selected_indices g.players i).1 hi).2
            simpa [Player.has_selected_card] using this)
          (fun i hi => by
            rw [hg1]
            exact hov i ((mem_sorted_selected_indices g.players i).1 hi).1)
          h4
      rw [hg1] at hcards
      refine ⟨g', res, by rw [hturn, hok]; simp, hcards, ?_⟩
      rw [hcards, List.pairwise_map]
      exact sorted_selected_indices_sorted g.players

/-- C1 witness: a single-player game (player selected 25, rows
10/20/30/40), where the turn resolves successfully. -/
theorem process_turn_spec_witness :
    (∀ i, i < [(⟨"A", [25], 0, 0, some 25, none⟩ : Player)].length →
      ∀ r, ([(⟨"A", [25], 0, 0, some 25, none⟩ : Player)].getD i
        default).forced_row_choice = some r → r < NUM_ROWS) ∧
    (⟨[⟨[10]⟩, ⟨[20]⟩, ⟨[30]⟩, ⟨[40]⟩]⟩ : Table).rows.length = 4 ∧
    (all_players_selected [(⟨"A", [25], 0, 0, some 25, none⟩ : Player)] = true →
      process_turn ⟨[⟨"A", [25], 0, 0, some 25, none⟩],
          ⟨[⟨[10]⟩, ⟨[20]⟩, ⟨[30]⟩, ⟨[40]⟩]⟩, 0, false, none⟩ =
        (sorted_selected_indices [(⟨"A", [25], 0, 0, some 25, none⟩ : Player)]).foldl
          (fun a i =>
            match a with
            | .error e => .error e
            | .ok (g1, rs) =>
              match process_one g1 i with
              | .error e => .error e
              | .ok (g2, r) => .ok (g2, rs ++ [r]))
          (.ok ({ (⟨[⟨"A", [25], 0, 0, some 25, none⟩],
              ⟨[⟨[10]⟩, ⟨[20]⟩, ⟨[30]⟩, ⟨[40]⟩]⟩, 0, false, none⟩ : Game) with
            turn_number := 0 + 1 }, [])) ∧
      ∃ g' res, process_turn ⟨[⟨"A", [25], 0, 0, some 25, none⟩],
          ⟨[⟨[10]⟩, ⟨[20]⟩, ⟨[30]⟩, ⟨[40]⟩]⟩, 0, false, none⟩ = .ok (g', res) ∧
        res.map (fun x => x.2.1) =
          (sorted_selected_indices [(⟨"A", [25], 0, 0, some 25, none⟩ : Player)]).map
            (sel_key [(⟨"A", [25], 0, 0, some 25, none⟩ : Player)]) ∧
        (res.map (fun x => x.2.1)).Pairwise (· ≤ ·)) :=
  ⟨by
    intro i hi r hr
    simp only [List.length_singleton] at hi
    have h0 : i = 0 := by omega
    subst h0
    simp [Inhabited.default] at hr,
   rfl,
   (process_turn_spec ⟨[⟨"A", [25], 0, 0, some 25, none⟩],
      ⟨[⟨[10]⟩, ⟨[20]⟩, ⟨[30]⟩, ⟨[40]⟩]⟩, 0, false, none⟩
      (by
        intro i hi r hr
        simp only [List.length_singleton] at hi
        have h0 : i = 0 := by omega
        subst h0
        simp [Inhabited.default] at hr)
      rfl).2⟩

/-- C6 counterexample: a pre-registered override is NOT always consumed by
the next `process_turn`. Player A registers override row 2 but selects 50,
which places normally; after the turn the override is still recorded (while
B and C never had one). -/
theorem forced_override_not_consumed_counterexample :
    (process_turn ⟨[⟨"A", [50], 0, 0, some 50, some 2⟩,
        ⟨"B", [11], 0, 0, some 11, none⟩, ⟨"C", [21], 0, 0, some 21, none⟩],
      ⟨[⟨[10]⟩, ⟨[20]⟩, ⟨[30]⟩, ⟨[40]⟩]⟩, 0, false, none⟩).toOption.map
        (fun x => x.1.players.map Player.forced_row_choice) =
      some [some 2, none, none] := by
  rfl

/-- C6 (amended): during `process_turn`, a player's pre-registered override
is consumed and cleared exactly when that player's card forces a wipe, and
the wiped row is then the overridden index; a forced wipe with no override
wipes row 0 (the lowest index); when the card does not force a wipe the
override is left registered, untouched, for a later turn. -/
theorem forced_override_spec (g : Game) (i : Nat) (c : Nat)
    (hc : (g.players.getD i default).selected_card = some c) :
    (∀ r, g.table.must_wipe_row c = true →
      (g.players.getD i default).forced_row_choice = some r → r < NUM_ROWS →
      ∃ g' p3 wiped, process_one g i = .ok (g', (p3, c, r, some wiped)) ∧
        wiped = (g.table.rows.getD r default).cards ∧
        p3.forced_row_choice = none ∧
        g'.players = g.players.set i p3) ∧
    (g.table.must_wipe_row c = true →
      (g.players.getD i default).forced_row_choice = none →
      ∃ g' p3 wiped, process_one g i = .ok (g', (p3, c, 0, some wiped)) ∧
        wiped = (g.table.rows.getD 0 default).cards ∧
        g'.players = g.players.set i p3) ∧
    (g.table.must_wipe_row c = false →
      ∃ g' p3 row wiped, process_one g i = .ok (g', (p3, c, row, wiped)) ∧
        p3.forced_row_choice = (g.players.getD i default).forced_row_choice ∧
        g'.players = g.players.set i p3) := by
  have hplay : (g.players.getD i default).play_selected_card =
      .ok (c, { g.players.getD i default with
        hand := (g.players.getD i default).hand.erase c, selected_card := none }) := by
    rw [Player.play_selected_card, hc]
  refine ⟨?_, ?_, ?_⟩
  · intro r hm hfo hr4
    rw [process_one, hplay]
    simp only [hm, if_true, reduceIte]
    rw [process_forced_wipe]
    simp only [hfo]
    rw [Table.place_card, if_pos hr4]
    simp only [Row.wipe_and_replace]
    exact ⟨_, _, _, rfl, rfl, rfl, rfl⟩
  · intro hm hfo
    rw [process_one, hplay]
    simp only [hm, if_true, reduceIte]
    rw [process_forced_wipe]
    simp only [hfo]
    have h0 : get_row_choice_for_player (g.table.get_row_choices) = 0 := rfl
    rw [h0, Table.place_card]
    rw [if_pos (show (0:Nat) < NUM_ROWS by rw [NUM_ROWS]; omega)]
    simp only [Row.wipe_and_replace]
    exact ⟨_, _, _, rfl, rfl, rfl⟩
  · intro hm
    rw [process_one, hplay]
    simp only [hm, if_false, reduceIte]
    obtain ⟨t', j, w, hplace, -, -, -, -⟩ := table_place_none_ok g.table c hm
    rw [hplace]
    exact ⟨_, _, _, _, rfl, rfl, rfl⟩

/-- C6 witness: the amended theorem at a one-player game whose card 5
forces a wipe with override row 2 registered. -/
theorem forced_override_spec_witness :
    ((⟨[⟨"A", [5], 0, 0, some 5, some 2⟩], ⟨[⟨[10]⟩, ⟨[20]⟩, ⟨[30]⟩, ⟨[40]⟩]⟩,
        0, false, none⟩ : Game).players.getD 0 default).selected_card = some 5 ∧
    ((∀ r, (⟨[⟨"A", [5], 0, 0, some 5, some 2⟩], ⟨[⟨[10]⟩, ⟨[20]⟩, ⟨[30]⟩, ⟨[40]⟩]⟩,
        0, false, none⟩ : Game).table.must_wipe_row 5 = true →
      ((⟨[⟨"A", [5], 0, 0, some 5, some 2⟩], ⟨[⟨[10]⟩, ⟨[20]⟩, ⟨[30]⟩, ⟨[40]⟩]⟩,
        0, false, none⟩ : Game).players.getD 0 default).forced_row_choice = some r →
      r < NUM_ROWS →
      ∃ g' p3 wiped, process_one (⟨[⟨"A", [5], 0, 0, some 5, some 2⟩],
          ⟨[⟨[10]⟩, ⟨[20]⟩, ⟨[30]⟩, ⟨[40]⟩]⟩, 0, false, none⟩ : Game) 0 =
          .ok (g', (p3, 5, r, some wiped)) ∧
        wiped = ((⟨[⟨"A", [5], 0, 0, some 5, some 2⟩], ⟨[⟨[10]⟩, ⟨[20]⟩, ⟨[30]⟩, ⟨[40]⟩]⟩,
          0, false, none⟩ : Game).table.rows.getD r default).cards ∧
        p3.forced_row_choice = none ∧
        g'.players = (⟨[⟨"A", [5], 0, 0, some 5, some 2⟩], ⟨[⟨[10]⟩, ⟨[20]⟩, ⟨[30]⟩, ⟨[40]⟩]⟩,
          0, false, none⟩ : Game).players.set 0 p3) ∧
    ((⟨[⟨"A", [5], 0, 0, some 5, some 2⟩], ⟨[⟨[10]⟩, ⟨[20]⟩, ⟨[30]⟩, ⟨[40]⟩]⟩,
        0, false, none⟩ : Game).table.must_wipe_row 5 = true →
      ((⟨[⟨"A", [5], 0, 0, some 5, some 2⟩], ⟨[⟨[10]⟩, ⟨[20]⟩, ⟨[30]⟩, ⟨[40]⟩]⟩,
        0, false, none⟩ : Game).players.getD 0 default).forced_row_choice = none →
      ∃ g' p3 wiped, process_one (⟨[⟨"A", [5], 0, 0, some 5, some 2⟩],
          ⟨[⟨[10]⟩, ⟨[20]⟩, ⟨[30]⟩, ⟨[40]⟩]⟩, 0, false, none⟩ : Game) 0 =
          .ok (g', (p3, 5, 0, some wiped)) ∧
        wiped = ((⟨[⟨"A", [5], 0, 0, some 5, some 2⟩], ⟨[⟨[10]⟩, ⟨[20]⟩, ⟨[30]⟩, ⟨[40]⟩]⟩,
          0, false, none⟩ : Game).table.rows.getD 0 default).cards ∧
        g'.players = (⟨[⟨"A", [5], 0, 0, some 5, some 2⟩], ⟨[⟨[10]⟩, ⟨[20]⟩, ⟨[30]⟩, ⟨[40]⟩]⟩,
          0, false, none⟩ : Game).players.set 0 p3) ∧
    ((⟨[⟨"A", [5], 0, 0, some 5, some 2⟩], ⟨[⟨[10]⟩, ⟨[20]⟩, ⟨[30]⟩, ⟨[40]⟩]⟩,
        0, false, none⟩ : Game).table.must_wipe_row 5 = false →
      ∃ g' p3 row wiped, process_one (⟨[⟨"A", [5], 0, 0, some 5, some 2⟩],
          ⟨[⟨[10]⟩, ⟨[20]⟩, ⟨[30]⟩, ⟨[40]⟩]⟩, 0, false, none⟩ : Game) 0 =
          .ok (g', (p3, 5, row, wiped)) ∧
        p3.forced_row_choice = ((⟨[⟨"A", [5], 0, 0, some 5, some 2⟩],
          ⟨[⟨[10]⟩, ⟨[20]⟩, ⟨[30]⟩, ⟨[40]⟩]⟩, 0, false,
          none⟩ : Game).players.getD 0 default).forced_row_choice ∧
        g'.players = (⟨[⟨"A", [5], 0, 0, some 5, some 2⟩], ⟨[⟨[10]⟩, ⟨[20]⟩, ⟨[30]⟩, ⟨[40]⟩]⟩,
          0, false, none⟩ : Game).players.set 0 p3)) :=
  ⟨rfl, forced_override_spec ⟨[⟨"A", [5], 0, 0, some 5, some 2⟩],
    ⟨[⟨[10]⟩, ⟨[20]⟩, ⟨[30]⟩, ⟨[40]⟩]⟩, 0, false, none⟩ 0 5 rfl⟩

/-- There is a non-full row whose last card is at most `m`. Such a row
accepts every card above `m`, so once it exists no later (larger) card of
the turn can force a wipe. -/
def open_row_le (t : Table) (m : Nat) : Prop :=
  ∃ j, j < t.rows.length ∧ (t.rows.getD j default).last_card ≤ m ∧
    (t.rows.getD j default).is_full = false

/-- A table with an accepting row never reports a forced wipe. -/
theorem must_wipe_false_of_accept (t : Table) (c : Nat) (j : Nat)
    (hj : j < t.rows.length) (hacc : (t.rows.getD j default).can_place_card c = true) :
    t.must_wipe_row c = false := by
  rw [Table.must_wipe_row]
  rcases h : t.find_target_row c with _ | i
  · exact absurd ((find_target_row_none_iff t c).1 h j hj) (by rw [hacc]; simp)
  · rfl

/-- An open row below `m` accepts every card above `m`. -/
theorem must_wipe_false_of_open (t : Table) (m c : Nat)
    (hopen : open_row_le t m) (hc : m < c) : t.must_wipe_row c = false := by
  obtain ⟨j, hj, hle, hfull⟩ := hopen
  refine must_wipe_false_of_accept t c j hj ?_
  rw [Row.can_place_card, hfull]
  simp only [Bool.not_false, Bool.and_true, decide_eq_true_eq]
  omega

/-- Setting a row to the single card `c` yields an open row below `c`
(trivially: that row itself). -/
theorem open_row_le_set (rows : List Row) (r c : Nat) (hr : r < rows.length) :
    open_row_le ⟨rows.set r ⟨[c]⟩⟩ c := by
  refine ⟨r, by simpa using hr, ?_, ?_⟩
  · simp only
    rw [List.getD_eq_getElem?_getD, List.getElem?_set_self (by simpa using hr)]
    exact le_refl _
  · simp only
    rw [List.getD_eq_getElem?_getD, List.getElem?_set_self (by simpa using hr)]
    rfl

/-- Normal placement leaves an open row at the placed card. -/
theorem open_row_le_place (t : Table) (c : Nat) (t' : Table) (i : Nat)
    (w : Option (List Nat)) (h : t.place_card c none = .ok (t', i, w)) :
    open_row_le t' c := by
  rcases hm : t.must_wipe_row c with _ | _
  · obtain ⟨ta, ja, wa, hplace, hlen, hja, hlast, hfull⟩ := table_place_none_ok t c hm
    have heq := hplace.symm.trans h
    simp only [Except.ok.injEq, Prod.mk.injEq] at heq
    obtain ⟨rfl, rfl, rfl⟩ := heq
    exact ⟨ja, by omega, le_of_eq hlast, hfull⟩
  · exfalso
    rw [Table.must_wipe_row, Option.isNone_iff_eq_none] at hm
    rw [Table.place_card, hm] at h
    simp at h

/-- A successful non-forced pass of the loop body: the player's card places
normally, the resulting table has an open row at that card, and the other
players are untouched. -/
theorem process_one_normal (g : Game) (i c : Nat)
    (hc : (g.players.getD i default).selected_card = some c)
    (hm : g.table.must_wipe_row c = false) :
    ∃ g1 res, process_one g i = .ok (g1, res) ∧
      open_row_le g1.table c ∧
      (∀ j, j ≠ i → g1.players.getD j default = g.players.getD j default) := by
  have hplay : (g.players.getD i default).play_selected_card =
      .ok (c, { g.players.getD i default with
        hand := (g.players.getD i default).hand.erase c, selected_card := none }) := by
    rw [Player.play_selected_card, hc]
  rw [process_one, hplay]
  simp only [hm, if_false, reduceIte]
  obtain ⟨t', j, w, hplace, -, -, -, -⟩ := table_place_none_ok g.table c hm
  rw [hplace]
  refine ⟨_, _, rfl, open_row_le_place g.table c t' j w hplace, ?_⟩
  intro j' hj'
  simp only
  rw [List.getD_eq_getElem?_getD, List.getElem?_set_ne (fun h => hj' h.symm),
    ← List.getD_eq_getElem?_getD]

/-- A successful forced pass of the loop body: the card forces a wipe, the
chosen row (override or default 0) is reseeded with the card — an open row
— and the other players are untouched. -/
theorem process_one_forced (g : Game) (i c : Nat)
    (hc : (g.players.getD i default).selected_card = some c)
    (hm : g.table.must_wipe_row c = true)
    (hov : ∀ r, (g.players.getD i default).forced_row_choice = some r → r < NUM_ROWS)
    (h4 : g.table.rows.length = 4) :
    ∃ g1 res, process_one g i = .ok (g1, res) ∧
      open_row_le g1.table c ∧
      (∀ j, j ≠ i → g1.players.getD j default = g.players.getD j default) := by
  have hplay : (g.players.getD i default).play_selected_card =
      .ok (c, { g.players.getD i default with
        hand := (g.players.getD i default).hand.erase c, selected_card := none }) := by
    rw [Player.play_selected_card, hc]
  rw [process_one, hplay]
  simp only [hm, if_true, reduceIte]
  rw [process_forced_wipe]
  have hpres : ∀ (p3 : Player) (j' : Nat), j' ≠ i →
      (g.players.set i p3).getD j' default = g.players.getD j' default := by
    intro p3 j' hj'
    rw [List.getD_eq_getElem?_getD, List.getElem?_set_ne (fun h => hj' h.symm),
      ← List.getD_eq_getElem?_getD]
  rcases hfo : (g.players.getD i default).forced_row_choice with _ | r
  · simp only [hfo]
    have h0 : get_row_choice_for_player (g.table.get_row_choices) = 0 := rfl
    rw [h0, Table.place_card]
    rw [if_pos (show (0:Nat) < NUM_ROWS by rw [NUM_ROWS]; omega)]
    simp only [Row.wipe_and_replace]
    exact ⟨_, _, rfl, open_row_le_set g.table.rows 0 c (by omega), fun j' hj' => hpres _ j' hj'⟩
  · simp only [hfo]
    have hr4 : r < NUM_ROWS := hov r hfo
    rw [Table.place_card, if_pos hr4]
    simp only [Row.wipe_and_replace]
    refine ⟨_, _, rfl, open_row_le_set g.table.rows r c (by rw [h4]; exact hr4), ?_⟩
    intro j' hj'
    exact hpres _ j' hj'

/-- Once the preview table has an open row below every upcoming
(strictly ascending) selected card, the preview flags nobody. -/
theorem preview_loop_nil (ps : List Player) :
    ∀ (t : Table) (m : Nat),
      open_row_le t m →
      (∀ p ∈ ps, (p.selected_card).isSome = true) →
      (∀ p ∈ ps, m < (p.selected_card).getD 0) →
      ps.Pairwise (fun p q => (p.selected_card).getD 0 < (q.selected_card).getD 0) →
      preview_loop t ps = [] := by
  induction ps with
  | nil =>
    intro t m _ _ _ _
    rfl
  | cons p rest ih =>
    intro t m hopen hsel hgt hasc
    obtain ⟨c, hc⟩ := Option.isSome_iff_exists.1 (hsel p (List.mem_cons_self _ _))
    have hmc : m < c := by
      have := hgt p (List.mem_cons_self _ _)
      rw [hc] at this
      simpa using this
    have hm : t.must_wipe_row c = false := must_wipe_false_of_open t m c hopen hmc
    obtain ⟨t', j, w, hplace, -, -, -, -⟩ := table_place_none_ok t c hm
    rw [preview_loop]
    simp only [preview_step, hc, hm, reduceIte, hplace]
    obtain ⟨hhead, htail⟩ := List.pairwise_cons.1 hasc
    refine ih t' c (open_row_le_place t c t' j w hplace) ?_ ?_ htail
    · exact fun q hq => hsel q (List.mem_cons_of_mem _ hq)
    · intro q hq
      have := hhead q hq
      rw [hc] at this
      simpa using this

/-- Once the real table has an open row below every upcoming (strictly
ascending) selected card, the real loop forces nobody. -/
theorem real_forced_pairs_nil (idxs : List Nat) :
    ∀ (g : Game) (m : Nat),
      idxs.Nodup →
      open_row_le g.table m →
      (∀ i ∈ idxs, ((g.players.getD i default).selected_card).isSome = true) →
      (∀ i ∈ idxs, m < sel_key g.players i) →
      idxs.Pairwise (fun i j => sel_key g.players i < sel_key g.players j) →
      real_forced_pairs g idxs = [] := by
  induction idxs with
  | nil =>
    intro g m _ _ _ _ _
    rfl
  | cons i rest ih =>
    intro g m hnd hopen hsel hgt hasc
    obtain ⟨c, hc⟩ := Option.isSome_iff_exists.1 (hsel i (List.mem_cons_self _ _))
    have hkey : sel_key g.players i = c := by
      rw [sel_key, hc]
      rfl
    have hmc : m < c := hkey ▸ hgt i (List.mem_cons_self _ _)
    have hm : g.table.must_wipe_row c = false := must_wipe_false_of_open _ m c hopen hmc
    obtain ⟨g1, res, hone, hopen1, hpres⟩ := process_one_normal g i c hc hm
    rw [real_forced_pairs, hone]
    simp only [hc, hm, reduceIte]
    have hkeys : ∀ j ∈ rest, sel_key g1.players j = sel_key g.players j := by
      intro j hj
      have hne : j ≠ i := by
        intro hji
        exact (List.nodup_cons.1 hnd).1 (hji ▸ hj)
      rw [sel_key, sel_key, hpres j hne]
    obtain ⟨hhead, htail⟩ := List.pairwise_cons.1 hasc
    refine ih g1 c (List.nodup_cons.1 hnd).2 hopen1 ?_ ?_ ?_
    · intro j hj
      have hne : j ≠ i := fun hji => (List.nodup_cons.1 hnd).1 (hji ▸ hj)
      rw [hpres j hne]
      exact hsel j (List.mem_cons_of_mem _ hj)
    · intro j hj
      rw [hkeys j hj]
      exact hkey ▸ hhead j hj
    · refine htail.imp_of_mem ?_
      intro a b ha hb hab
      rw [hkeys a ha, hkeys b hb]
      exact hab

/-- C7: with every player holding a (pairwise-distinct) pending selection,
valid recorded overrides and a 4-row table, the preview helper returns
exactly the (player, card) pairs that enter the forced-wipe branch of the
subsequent real `process_turn` loop, in ascending selected-card order; the
preview runs on its own copy of the table, the live table being untouched
by construction in this embedding. (Only the first player in turn order
can ever be forced: every processed card leaves an open row at a value
below all later cards, so the helper's always-reset-row-0 shortcut never
changes the outcome.) -/
theorem preview_matches_real (g : Game)
    (_hall : all_players_selected g.players = true)
    (hdist : ∀ i, i < g.players.length → ∀ j, j < g.players.length → i ≠ j →
      sel_key g.players i ≠ sel_key g.players j)
    (hov : ∀ i, i < g.players.length → ∀ r,
      (g.players.getD i default).forced_row_choice = some r → r < NUM_ROWS)
    (h4 : g.table.rows.length = 4) :
    get_players_needing_row_choice g =
      real_forced_pairs g (sorted_selected_indices g.players) ∧
    ((get_players_needing_row_choice g).map (fun x => x.2)).Pairwise (· ≤ ·) := by
  have hnd := sorted_selected_indices_nodup g.players
  have hsorted := sorted_selected_indices_sorted g.players
  have hstrict : (sorted_selected_indices g.players).Pairwise
      (fun i j => sel_key g.players i < sel_key g.players j) := by
    refine (hsorted.and hnd).imp_of_mem ?_
    rintro a b ha hb ⟨hle, hne⟩
    have hka := ((mem_sorted_selected_indices g.players a).1 ha).1
    have hkb := ((mem_sorted_selected_indices g.players b).1 hb).1
    have := hdist a hka b hkb hne
    omega
  have hselm : ∀ i ∈ sorted_selected_indices g.players,
      ((g.players.getD i default).selected_card).isSome = true := by
    intro i hi
    have := ((mem_sorted_selected_indices g.players i).1 hi).2
    simpa [Player.has_selected_card] using this
  rw [get_players_needing_row_choice]
  rcases hidx : sorted_selected_indices g.players with _ | ⟨i1, rest⟩
  · exact ⟨rfl, by simp [preview_loop]⟩
  · rw [hidx] at hnd hstrict hselm
    obtain ⟨c1, hc1⟩ := Option.isSome_iff_exists.1 (hselm i1 (List.mem_cons_self _ _))
    have hkey1 : sel_key g.players i1 = c1 := by
      rw [sel_key, hc1]
      rfl
    obtain ⟨hhead, htail⟩ := List.pairwise_cons.1 hstrict
    have hrest_sel : ∀ p ∈ rest.map (fun i => g.players.getD i default),
        (p.selected_card).isSome = true := by
      intro p hp
      obtain ⟨j, hj, rfl⟩ := List.mem_map.1 hp
      exact hselm j (List.mem_cons_of_mem _ hj)
    have hrest_gt : ∀ p ∈ rest.map (fun i => g.players.getD i default),
        c1 < (p.selected_card).getD 0 := by
      intro p hp
      obtain ⟨j, hj, rfl⟩ := List.mem_map.1 hp
      exact hkey1 ▸ hhead j hj
    have hrest_asc : (rest.map (fun i => g.players.getD i default)).Pairwise
        (fun p q => (p.selected_card).getD 0 < (q.selected_card).getD 0) :=
      List.pairwise_map.2 htail
    have hrest_sel_idx : ∀ j ∈ rest,
        ((g.players.getD j default).selected_card).isSome = true :=
      fun j hj => hselm j (List.mem_cons_of_mem _ hj)
    by_cases hm : g.table.must_wipe_row c1 = true
    · obtain ⟨g1, res, hone, hopen1, hpres⟩ := process_one_forced g i1 c1 hc1 hm
        (hov i1 ((mem_sorted_selected_indices g.players i1).1
          (hidx ▸ List.mem_cons_self _ _)).1) h4
      have hkeys : ∀ j ∈ rest, sel_key g1.players j = sel_key g.players j := by
        intro j hj
        have hne : j ≠ i1 := fun hji => (List.nodup_cons.1 hnd).1 (hji ▸ hj)
        rw [sel_key, sel_key, hpres j hne]
      have hreal_tail : real_forced_pairs g1 rest = [] := by
        refine real_forced_pairs_nil rest g1 c1 (List.nodup_cons.1 hnd).2 hopen1 ?_ ?_ ?_
        · intro j hj
          have hne : j ≠ i1 := fun hji => (List.nodup_cons.1 hnd).1 (hji ▸ hj)
          rw [hpres j hne]
          exact hrest_sel_idx j hj
        · intro j hj
          rw [hkeys j hj]
          exact hkey1 ▸ hhead j hj
        · refine htail.imp_of_mem ?_
          intro a b ha hb hab
          rw [hkeys a ha, hkeys b hb]
          exact hab
      have hprev_tail :
          preview_loop ⟨g.table.rows.set 0 ⟨[c1]⟩⟩
            (rest.map (fun i => g.players.getD i default)) = [] := by
        refine preview_loop_nil _ _ c1 (open_row_le_set g.table.rows 0 c1 (by omega))
          hrest_sel hrest_gt hrest_asc
      constructor
      · rw [List.map_cons, preview_loop]
        simp only [preview_step, hc1, hm, reduceIte]
        rw [hprev_tail]
        rw [real_forced_pairs, hone]
        simp only [hc1, hm, reduceIte]
        rw [hreal_tail]
      · rw [List.map_cons, preview_loop]
        simp only [preview_step, hc1, hm, reduceIte]
        rw [hprev_tail]
        simp
    · have hmf : g.table.must_wipe_row c1 = false := by
        simpa using hm
      obtain ⟨t', j, w, hplace, -, -, -, -⟩ := table_place_none_ok g.table c1 hmf
      obtain ⟨g1, res, hone, hopen1, hpres⟩ := process_one_normal g i1 c1 hc1 hmf
      have hkeys : ∀ j ∈ rest, sel_key g1.players j = sel_key g.players j := by
        intro j hj
        have hne : j ≠ i1 := fun hji => (List.nodup_cons.1 hnd).1 (hji ▸ hj)
        rw [sel_key, sel_key, hpres j hne]
      have hreal_tail : real_forced_pairs g1 rest = [] := by
        refine real_forced_pairs_nil rest g1 c1 (List.nodup_cons.1 hnd).2 hopen1 ?_ ?_ ?_
        · intro j hj
          have hne : j ≠ i1 := fun hji => (List.nodup_cons.1 hnd).1 (hji ▸ hj)
          rw [hpres j hne]
          exact hrest_sel_idx j hj
        · intro j hj
          rw [hkeys j hj]
          exact hkey1 ▸ hhead j hj
        · refine htail.imp_of_mem ?_
          intro a b ha hb hab
          rw [hkeys a ha, hkeys b hb]
          exact hab
      have hprev_tail :
          preview_loop t' (rest.map (fun i => g.players.getD i default)) = [] :=
        preview_loop_nil _ t' c1 (open_row_le_place g.table c1 t' j w hplace)
          hrest_sel hrest_gt hrest_asc
      constructor
      · rw [List.map_cons, preview_loop]
        simp only [preview_step, hc1, hmf, Bool.false_eq_true, reduceIte, hplace]
        rw [hprev_tail]
        rw [real_forced_pairs, hone]
        simp only [hc1, hmf, Bool.false_eq_true, reduceIte]
        rw [hreal_tail]
      · rw [List.map_cons, preview_loop]
        simp only [preview_step, hc1, hmf, Bool.false_eq_true, reduceIte, hplace]
        rw [hprev_tail]
        simp

/-- C7 witness: a 3-player game (selections 5, 15, 21 on rows ending
20/30/40/50, card 5 forced), where the preview and the real loop agree. -/
theorem preview_matches_real_witness :
    all_players_selected [⟨"A", [5], 0, 0, some 5, none⟩, ⟨"B", [15], 0, 0, some 15, none⟩,
      ⟨"C", [21], 0, 0, some 21, none⟩] = true ∧
    (∀ i, i < ([⟨"A", [5], 0, 0, some 5, none⟩, ⟨"B", [15], 0, 0, some 15, none⟩,
        (⟨"C", [21], 0, 0, some 21, none⟩ : Player)]).length →
      ∀ j, j < ([⟨"A", [5], 0, 0, some 5, none⟩, ⟨"B", [15], 0, 0, some 15, none⟩,
        (⟨"C", [21], 0, 0, some 21, none⟩ : Player)]).length → i ≠ j →
      sel_key [⟨"A", [5], 0, 0, some 5, none⟩, ⟨"B", [15], 0, 0, some 15, none⟩,
        ⟨"C", [21], 0, 0, some 21, none⟩] i ≠
      sel_key [⟨"A", [5], 0, 0, some 5, none⟩, ⟨"B", [15], 0, 0, some 15, none⟩,
        ⟨"C", [21], 0, 0, some 21, none⟩] j) ∧
    ((get_players_needing_row_choice ⟨[⟨"A", [5], 0, 0, some 5, none⟩,
        ⟨"B", [15], 0, 0, some 15, none⟩, ⟨"C", [21], 0, 0, some 21, none⟩],
        ⟨[⟨[17, 18, 19, 20]⟩, ⟨[30]⟩, ⟨[40]⟩, ⟨[50]⟩]⟩, 0, false, none⟩ : List (Player × Nat)) =
      real_forced_pairs ⟨[⟨"A", [5], 0, 0, some 5, none⟩,
        ⟨"B", [15], 0, 0, some 15, none⟩, ⟨"C", [21], 0, 0, some 21, none⟩],
        ⟨[⟨[17, 18, 19, 20]⟩, ⟨[30]⟩, ⟨[40]⟩, ⟨[50]⟩]⟩, 0, false, none⟩
        (sorted_selected_indices [⟨"A", [5], 0, 0, some 5, none⟩,
          ⟨"B", [15], 0, 0, some 15, none⟩, ⟨"C", [21], 0, 0, some 21, none⟩]) ∧
      ((get_players_needing_row_choice ⟨[⟨"A", [5], 0, 0, some 5, none⟩,
          ⟨"B", [15], 0, 0, some 15, none⟩, ⟨"C", [21], 0, 0, some 21, none⟩],
          ⟨[⟨[17, 18, 19, 20]⟩, ⟨[30]⟩, ⟨[40]⟩, ⟨[50]⟩]⟩, 0, false, none⟩).map
        (fun x => x.2)).Pairwise (· ≤ ·)) :=
  ⟨by decide, by decide,
    preview_matches_real ⟨[⟨"A", [5], 0, 0, some 5, none⟩,
      ⟨"B", [15], 0, 0, some 15, none⟩, ⟨"C", [21], 0, 0, some 21, none⟩],
      ⟨[⟨[17, 18, 19, 20]⟩, ⟨[30]⟩, ⟨[40]⟩, ⟨[50]⟩]⟩, 0, false, none⟩
      (by decide) (by decide)
      (by
        intro i hi r hr
        simp only [List.length_cons, List.length_nil] at hi
        interval_cases i <;> simp [Inhabited.default] at hr)
      rfl⟩

end FiveTakes
